import Mathlib

/-!
Shallow embedding of `cache_size_vs_speedup.py`, a benchmark-result
post-processor: it scans a directory of experiment log files named
`exp_<CACHE_SIZE>_<sw|hw>.txt`, extracts a run time in seconds from each
file via a fixed regular expression, aggregates the values into a table
keyed by cache size, and plots the per-cache-size delta
`software_time - hardware_time` against the cache size (linear or log2
x-axis).

Modelling conventions:
- Python strings are Lean `String` / `List Char`; character classes are
  read on the ASCII range (`\d` is `Char.isDigit`, `\s` is the six ASCII
  whitespace characters).
- Python floats are modelled as exact rationals (`ℚ`); the tokens the
  script converts are strings of digits and dots, whose values are exact.
- `math.log2` is modelled as `Real.logb 2`; since `math.log2 0` raises
  `ValueError`, the log-mode aggregation is a fallible function
  (`Except`), erroring exactly where the Python code would raise.
- A directory listing is a list of files in scan order; a file whose
  `content` is `none` models a file whose `open`/`read` raises (the
  `except` path of the script).
- The Python dict (which preserves insertion order and has unique keys)
  is an association list; new keys are appended at the end.
-/

namespace CacheSpeedup

/-- The two compression modes encoded in a filename: `sw` or `hw`. -/
inductive Mode where
  | sw
  | hw
deriving DecidableEq, Repr

/-- The filename token for a mode, as it appears in `exp_<N>_<sw|hw>.txt`. -/
def Mode.token : Mode → List Char
  | .sw => ['s', 'w']
  | .hw => ['h', 'w']

/-- Drop an exact literal from the front of a character list; `none` when
the list does not start with the literal.  This is the building block for
the literal pieces of the two regular expressions of the script. -/
def dropLit : List Char → List Char → Option (List Char)
  | [], s => some s
  | _ :: _, [] => none
  | c :: cs, d :: ds => if c = d then dropLit cs ds else none

/-- Decimal digit string to a natural number, as Python `int` reads a
string of ASCII digits (`int("007") = 7`). -/
def digitsToNat (ds : List Char) : ℕ :=
  ds.foldl (fun a c => 10 * a + (c.toNat - 48)) 0

/-- FILENAME_REGEX from the script: `exp_(\d+)_(sw|hw)\.txt$`, applied
with `re.match` (anchored at the start of the name).  Python `$` matches
at the end of the string or just before a single final newline, so a name
equal to a well-formed name followed by one `'\n'` also matches.
`\d+` is greedy; since `'_'` is not a digit, maximal munch is exact. -/
def matchFilename (name : String) : Option (ℕ × Mode) :=
  match dropLit ['e', 'x', 'p', '_'] name.toList with
  | none => none
  | some s =>
    if (s.takeWhile Char.isDigit).isEmpty then none
    else
      match dropLit ['_'] (s.dropWhile Char.isDigit) with
      | none => none
      | some s2 =>
        match (match dropLit Mode.sw.token s2 with
               | some r => some (Mode.sw, r)
               | none =>
                 match dropLit Mode.hw.token s2 with
                 | some r => some (Mode.hw, r)
                 | none => none : Option (Mode × List Char)) with
        | none => none
        | some (m, s3) =>
          match dropLit ['.', 't', 'x', 't'] s3 with
          | none => none
          | some s4 =>
            if s4 = [] ∨ s4 = ['\n'] then
              some (digitsToNat (s.takeWhile Char.isDigit), m)
            else none

/-- The ASCII characters matched by Python `\s`. -/
def isPySpace (c : Char) : Bool :=
  c = ' ' ∨ c = '\t' ∨ c = '\n' ∨ c = '\r' ∨ c = '\x0b' ∨ c = '\x0c'

/-- The character class `[\d\.]` of MIXGRAPH_TIME_REGEX. -/
def isNumDot (c : Char) : Bool :=
  c.isDigit ∨ c = '.'

/-- Try MIXGRAPH_TIME_REGEX at the current position:
`mixgraph\s*:\s*[\d\.]+\s*micros/op\s*[\d\.]+\s*ops/sec\s*([\d\.]+)\s*seconds`.
Returns the captured group (the seconds token).  Maximal munch is exact
for this pattern: `[\d\.]` and `\s` are disjoint classes and every
literal that follows a class starts with a character in neither class,
so the greedy backtracking match of the Python engine is the unique
maximal-munch parse. -/
def matchMixAt (s : List Char) : Option (List Char) :=
  match dropLit ['m', 'i', 'x', 'g', 'r', 'a', 'p', 'h'] s with
  | none => none
  | some s =>
    match dropLit [':'] (s.dropWhile isPySpace) with
    | none => none
    | some s =>
      let s := s.dropWhile isPySpace
      let n1 := s.takeWhile isNumDot
      let s := s.dropWhile isNumDot
      if n1.isEmpty then none
      else
        match dropLit ['m', 'i', 'c', 'r', 'o', 's', '/', 'o', 'p'] (s.dropWhile isPySpace) with
        | none => none
        | some s =>
          let s := s.dropWhile isPySpace
          let n2 := s.takeWhile isNumDot
          let s := s.dropWhile isNumDot
          if n2.isEmpty then none
          else
            match dropLit ['o', 'p', 's', '/', 's', 'e', 'c'] (s.dropWhile isPySpace) with
            | none => none
            | some s =>
              let s := s.dropWhile isPySpace
              let cap := s.takeWhile isNumDot
              let s := s.dropWhile isNumDot
              if cap.isEmpty then none
              else
                match dropLit ['s', 'e', 'c', 'o', 'n', 'd', 's'] (s.dropWhile isPySpace) with
                | none => none
                | some _ => some cap

/-- `re.search` with MIXGRAPH_TIME_REGEX: try the pattern at every
position from the left, return the first capture. -/
def searchMix : List Char → Option (List Char)
  | [] => none
  | c :: rest =>
    match matchMixAt (c :: rest) with
    | some cap => some cap
    | none => searchMix rest

/-- Python `float()` on a token drawn from the class `[\d\.]+`, as an
exact rational.  Such a token converts successfully exactly when it has
at least one digit and at most one dot (`"5."`, `".5"`, `"10.0"` succeed;
`"1.2.3"`, `"."` raise `ValueError`).  The `all isNumDot` guard keeps the
function faithful on its reachable domain (captures of the regex). -/
def pyFloat (tok : List Char) : Option ℚ :=
  if tok.all isNumDot ∧ tok.any Char.isDigit ∧ tok.count '.' ≤ 1 then
    let intPart := tok.takeWhile (· ≠ '.')
    let fracPart := (tok.dropWhile (· ≠ '.')).drop 1
    some ((digitsToNat intPart : ℚ) + (digitsToNat fracPart : ℚ) / 10 ^ fracPart.length)
  else none

/-- One row of `experiment_data`: the inner dict `{'sw': ..., 'hw': ...}`
with zero, one or two modes populated. -/
structure Entry where
  sw : Option ℚ
  hw : Option ℚ
deriving DecidableEq, Repr

/-- Read one mode out of an entry. -/
def Entry.get : Entry → Mode → Option ℚ
  | e, .sw => e.sw
  | e, .hw => e.hw

/-- Overwrite one mode of an entry (dict item assignment on the inner
dict). -/
def Entry.set : Entry → Mode → ℚ → Entry
  | e, .sw, q => { e with sw := some q }
  | e, .hw, q => { e with hw := some q }

/-- `experiment_data`: a Python dict keyed by cache size, modelled as an
association list in insertion order with (by construction) unique keys. -/
abbrev Table := List (ℕ × Entry)

/-- Dict lookup: the entry stored for a cache size, if present. -/
def findEntry : Table → ℕ → Option Entry
  | [], _ => none
  | (c, e) :: t, c' => if c = c' then some e else findEntry t c'

/-- The time recorded for a `(cache_size, mode)` pair, if any. -/
def modeVal (t : Table) (c : ℕ) (m : Mode) : Option ℚ :=
  (findEntry t c).bind (fun e => e.get m)

/-- Lines 50-51 of the script: `if cache_size not in experiment_data:
experiment_data[cache_size] = {}` — insert an empty entry for a new key
(Python dicts append new keys in insertion order). -/
def ensureKey (t : Table) (c : ℕ) : Table :=
  if (findEntry t c).isSome then t else t ++ [(c, ⟨none, none⟩)]

/-- Line 62: `experiment_data[cache_size][compression_type] = run_time` —
overwrite the mode slot of the (first, hence unique) entry for the key. -/
def setMode : Table → ℕ → Mode → ℚ → Table
  | [], _, _, _ => []
  | (c, e) :: t, c', m, q =>
    if c = c' then (c, e.set m q) :: t else (c, e) :: setMode t c' m q

/-- A directory entry as the scan sees it: a name, and the text obtained
by reading it — `none` when the read raises (caught at line 66). -/
structure EFile where
  name : String
  content : Option String
deriving DecidableEq

/-- The run time the script extracts from a file's content: read the
text, search for the mixgraph line, convert the captured token.  `none`
on read error, missing metric or failed float conversion. -/
def fileValue (f : EFile) : Option ℚ :=
  f.content.bind fun txt => (searchMix txt.toList).bind pyFloat

/-- The `(cache_size, mode, seconds)` triple a file contributes to the
table, if its name matches and its content yields a value. -/
def fileYield (f : EFile) : Option (ℕ × Mode × ℚ) :=
  match matchFilename f.name with
  | none => none
  | some (c, m) => (fileValue f).map fun q => (c, m, q)

/-- The loop body of `parse_experiment_files` (lines 37-67) for one file:
skip names that do not match; on a match, first initialize the key's
entry, then store the extracted value if the content yields one. -/
def step (t : Table) (f : EFile) : Table :=
  match matchFilename f.name with
  | none => t
  | some (c, m) =>
    match fileValue f with
    | some q => setMode (ensureKey t c) c m q
    | none => ensureKey t c

/-- Scan a directory listing from a starting table. -/
def collectFrom (t : Table) (fs : List EFile) : Table :=
  fs.foldl step t

/-- `parse_experiment_files`: fold the per-file step over the listing,
starting from the empty dict. -/
def collect (fs : List EFile) : Table :=
  collectFrom [] fs

/-- The one diagnostic line `parse_experiment_files` prints per file. -/
inductive LogEvent where
  | skipUnrecognized (name : String)
  | parsed (c : ℕ) (m : Mode) (q : ℚ)
  | noMetric (name : String)
  | readError (name : String)
deriving DecidableEq

/-- Which diagnostic line the scan prints for a file: line 43 for an
unmatched name, line 63 on success, line 65 when the metric pattern is
absent, line 67 when the read or the float conversion raises. -/
def logFile (f : EFile) : LogEvent :=
  match matchFilename f.name with
  | none => .skipUnrecognized f.name
  | some (c, m) =>
    match f.content with
    | none => .readError f.name
    | some txt =>
      match searchMix txt.toList with
      | none => .noMetric f.name
      | some tok =>
        match pyFloat tok with
        | some q => .parsed c m q
        | none => .readError f.name

/-- `sorted(experiment_data.keys())`: the keys of the table in ascending
order (modelled by insertion sort; on the duplicate-free key lists a dict
produces, any ascending sort is the same list). -/
def sortedKeys (t : Table) : List ℕ :=
  List.insertionSort (· ≤ ·) (t.map Prod.fst)

/-- The loop of `plot_time_differences_log2` (lines 128-140) over an
already-sorted key list: keep `(cache_size, sw - hw)` for each key with
both modes present, skip the rest.  `math.log2(cache_size)` is evaluated
for every kept key, and raises `ValueError` when the key is `0`; the
exception is uncaught, so the whole run fails (`Except.error`). -/
def deltaRows (t : Table) : List ℕ → Except Unit (List (ℕ × ℚ))
  | [] => .ok []
  | c :: cs =>
    match modeVal t c .sw, modeVal t c .hw with
    | some s, some h =>
      if c = 0 then .error ()
      else (deltaRows t cs).map (fun rows => (c, s - h) :: rows)
    | _, _ => deltaRows t cs

/-- The log-mode DeltaSeries: complete pairs in ascending cache-size
order, carrying the raw cache size (plotted at x = log2 of it) and the
delta `sw - hw`.  Errors exactly when the Python loop would raise. -/
def deltaSeriesLog (t : Table) : Except Unit (List (ℕ × ℚ)) :=
  deltaRows t (sortedKeys t)

/-- The linear-mode series of `plot_time_differences` (lines 83-90):
x = cache_size / (1024*1024) in mebibytes, y = sw - hw. -/
def linearSeries (t : Table) : List (ℚ × ℚ) :=
  (sortedKeys t).filterMap fun c =>
    match modeVal t c .sw, modeVal t c .hw with
    | some s, some h => some ((c : ℚ) / (1024 * 1024), s - h)
    | _, _ => none

/-- `math.log2` on the cache sizes, as a real number. -/
noncomputable def pyLog2 (c : ℕ) : ℝ :=
  Real.logb 2 c

/-- Line 157: `unique_cache_sizes = sorted(cache_sizes_bytes)` — the tick
positions of the log-mode chart are the collected cache sizes, re-sorted;
each is placed at x = log2 of it. -/
def logTickSizes (rows : List (ℕ × ℚ)) : List ℕ :=
  List.insertionSort (· ≤ ·) (rows.map Prod.fst)

/-- Line 159: the tick label for a cache size — `"<C // 1048576>MB"`
(floor division) when `C >= 1024*1024`, else `"<C>B"`. -/
def tickLabel (c : ℕ) : String :=
  if 1024 * 1024 ≤ c then toString (c / (1024 * 1024)) ++ "MB" else toString c ++ "B"

/-- How one run of `main` ends, abstracting the renderer: the directory
is missing (line 177), the table is empty (line 186), the log-mode loop
raises `ValueError` on `log2(0)` (uncaught: traceback, nonzero exit),
there are no complete pairs (line 143, no chart), or a chart is drawn
with the given series and tick sizes. -/
inductive RunOutcome where
  | dirMissing
  | noValidData
  | uncaughtError
  | plottedNothing
  | plotted (rows : List (ℕ × ℚ)) (ticks : List ℕ)
deriving DecidableEq

/-- `main` (lines 174-195).  The input is `none` when the configured
directory does not exist, otherwise the directory listing in scan
order. -/
def runMain : Option (List EFile) → RunOutcome
  | none => .dirMissing
  | some fs =>
    let t := collect fs
    if t.isEmpty then .noValidData
    else
      match deltaSeriesLog t with
      | .error _ => .uncaughtError
      | .ok [] => .plottedNothing
      | .ok rows => .plotted rows (logTickSizes rows)

/-- The keys of the table are duplicate-free — the dict invariant. -/
abbrev KeysNodup (t : Table) : Prop :=
  (t.map Prod.fst).Nodup

/-! ### Lemmas about the literal matcher and character runs -/

theorem dropLit_eq_some {lit s r : List Char} :
    dropLit lit s = some r ↔ s = lit ++ r := by
  induction lit generalizing s with
  | nil => cases s <;> simp [dropLit]
  | cons c cs ih =>
    cases s with
    | nil => simp [dropLit]
    | cons d ds =>
      by_cases h : c = d
      · subst h
        simp [dropLit, ih]
      · simp only [dropLit, if_neg h, List.cons_append, List.cons.injEq]
        constructor
        · intro h2
          exact absurd h2 (by simp)
        · intro h2
          exact absurd h2.1.symm h

theorem takeWhile_append_all {p : Char → Bool} {ds : List Char} (x : Char)
    (r : List Char) (hds : ∀ c ∈ ds, p c) (hx : ¬ p x) :
    (ds ++ x :: r).takeWhile p = ds ∧ (ds ++ x :: r).dropWhile p = x :: r := by
  induction ds with
  | nil => simp [List.takeWhile, List.dropWhile, hx]
  | cons d ds ih =>
    have hd : p d := hds d (by simp)
    have ih2 := ih (fun c hc => hds c (by simp [hc]))
    simp [List.takeWhile, List.dropWhile, hd, ih2.1, ih2.2]

/-! ### Lemmas about the table operations -/

theorem findEntry_isSome_iff {t : Table} {c : ℕ} :
    (findEntry t c).isSome ↔ c ∈ t.map Prod.fst := by
  induction t with
  | nil => simp [findEntry]
  | cons a t ih =>
    obtain ⟨c0, e0⟩ := a
    by_cases h : c0 = c
    · subst h
      simp [findEntry]
    · have he : findEntry ((c0, e0) :: t) c = findEntry t c := by
        simp [findEntry, h]
      rw [he, ih]
      simp only [List.map_cons, List.mem_cons]
      exact ⟨Or.inr, fun hm => hm.resolve_left fun he2 => h he2.symm⟩

theorem findEntry_append {t1 t2 : Table} {c : ℕ} :
    findEntry (t1 ++ t2) c =
      match findEntry t1 c with
      | some e => some e
      | none => findEntry t2 c := by
  induction t1 with
  | nil => simp [findEntry]
  | cons a t ih =>
    obtain ⟨c0, e0⟩ := a
    by_cases h : c0 = c <;> simp [findEntry, h, ih]

theorem Entry.get_empty (m : Mode) : Entry.get ⟨none, none⟩ m = none := by
  cases m <;> rfl

theorem Entry.get_set_self (e : Entry) (m : Mode) (q : ℚ) :
    (e.set m q).get m = some q := by
  cases m <;> rfl

theorem Entry.get_set_ne (e : Entry) {m m' : Mode} (h : m' ≠ m) (q : ℚ) :
    (e.set m' q).get m = e.get m := by
  cases m <;> cases m' <;> first
    | rfl
    | exact absurd rfl h

theorem modeVal_ensureKey (t : Table) (c c' : ℕ) (m : Mode) :
    modeVal (ensureKey t c') c m = modeVal t c m := by
  unfold ensureKey
  by_cases h : (findEntry t c').isSome
  · simp [h]
  · rw [if_neg h]
    unfold modeVal
    rw [findEntry_append]
    cases hf : findEntry t c with
    | some e => simp
    | none =>
      by_cases hc : c' = c
      · subst hc
        simp [findEntry, Entry.get_empty]
      · simp [findEntry, hc]

theorem findEntry_ensureKey_isSome (t : Table) (c : ℕ) :
    (findEntry (ensureKey t c) c).isSome := by
  unfold ensureKey
  by_cases h : (findEntry t c).isSome
  · rw [if_pos h]
    exact h
  · rw [if_neg h, findEntry_append, Option.not_isSome_iff_eq_none.mp h]
    simp [findEntry]

theorem keys_setMode (t : Table) (c : ℕ) (m : Mode) (q : ℚ) :
    (setMode t c m q).map Prod.fst = t.map Prod.fst := by
  induction t with
  | nil => rfl
  | cons a t ih =>
    obtain ⟨c0, e0⟩ := a
    by_cases h : c0 = c <;> simp [setMode, h, ih]

theorem modeVal_setMode_self {t : Table} {c : ℕ} (m : Mode) (q : ℚ)
    (h : (findEntry t c).isSome) :
    modeVal (setMode t c m q) c m = some q := by
  induction t with
  | nil => simp [findEntry] at h
  | cons a t ih =>
    obtain ⟨c0, e0⟩ := a
    by_cases hc : c0 = c
    · subst hc
      simp [modeVal, setMode, findEntry, Entry.get_set_self]
    · rw [show findEntry ((c0, e0) :: t) c = findEntry t c from by simp [findEntry, hc]] at h
      simpa [modeVal, setMode, findEntry, hc] using ih h

theorem findEntry_setMode_ne {t : Table} {c c' : ℕ} (h : c' ≠ c) (m : Mode) (q : ℚ) :
    findEntry (setMode t c' m q) c = findEntry t c := by
  induction t with
  | nil => rfl
  | cons a t ih =>
    obtain ⟨c0, e0⟩ := a
    by_cases hc : c0 = c'
    · subst hc
      have hne : ¬ c0 = c := fun he => h (he ▸ rfl)
      simp [setMode, findEntry, hne]
    · by_cases hc2 : c0 = c
      · subst hc2
        simp [setMode, findEntry, hc]
      · simp [setMode, findEntry, hc, hc2, ih]

theorem findEntry_setMode_self {t : Table} {c : ℕ} (m : Mode) (q : ℚ) :
    findEntry (setMode t c m q) c = (findEntry t c).map (fun e => e.set m q) := by
  induction t with
  | nil => rfl
  | cons a t ih =>
    obtain ⟨c0, e0⟩ := a
    by_cases hc : c0 = c <;> simp [setMode, findEntry, hc, ih]

theorem modeVal_setMode_ne {t : Table} {c c' : ℕ} {m m' : Mode}
    (h : ¬(c' = c ∧ m' = m)) (q : ℚ) :
    modeVal (setMode t c' m' q) c m = modeVal t c m := by
  by_cases hc : c' = c
  · subst hc
    have hm : m' ≠ m := fun hm => h ⟨rfl, hm⟩
    simp only [modeVal, findEntry_setMode_self]
    cases findEntry t c' with
    | none => rfl
    | some e => simp [Entry.get_set_ne e hm]
  · simp [modeVal, findEntry_setMode_ne hc]

/-! ### Lemmas about the scan -/

theorem modeVal_step_yield {f : EFile} {c : ℕ} {m : Mode} {q : ℚ}
    (h : fileYield f = some (c, m, q)) (t : Table) :
    modeVal (step t f) c m = some q := by
  unfold fileYield at h
  cases hm : matchFilename f.name with
  | none => rw [hm] at h; cases h
  | some p =>
    obtain ⟨c1, m1⟩ := p
    rw [hm] at h
    cases hv : fileValue f with
    | none => rw [hv] at h; cases h
    | some q1 =>
      rw [hv] at h
      injection h with h2
      have h3 : c1 = c := congrArg Prod.fst h2
      have h4 : m1 = m := congrArg (Prod.fst ∘ Prod.snd) h2
      have h5 : q1 = q := congrArg (Prod.snd ∘ Prod.snd) h2
      unfold step
      rw [hm, hv, h3, h4, h5]
      exact modeVal_setMode_self m q (findEntry_ensureKey_isSome t c)

theorem modeVal_step_of_no_yield {f : EFile} {c : ℕ} {m : Mode}
    (h : ∀ q : ℚ, fileYield f ≠ some (c, m, q)) (t : Table) :
    modeVal (step t f) c m = modeVal t c m := by
  unfold step
  cases hm : matchFilename f.name with
  | none => rfl
  | some p =>
    obtain ⟨c1, m1⟩ := p
    cases hv : fileValue f with
    | none => exact modeVal_ensureKey t c c1 m
    | some q1 =>
      have hy : fileYield f = some (c1, m1, q1) := by
        unfold fileYield
        rw [hm, hv]
        rfl
      have hne : ¬(c1 = c ∧ m1 = m) := by
        rintro ⟨rfl, rfl⟩
        exact h q1 hy
      rw [modeVal_setMode_ne hne q1, modeVal_ensureKey t c c1 m]

theorem modeVal_collectFrom_of_no_yield {fs : List EFile} {c : ℕ} {m : Mode}
    (h : ∀ g ∈ fs, ∀ q : ℚ, fileYield g ≠ some (c, m, q)) (t : Table) :
    modeVal (collectFrom t fs) c m = modeVal t c m := by
  induction fs generalizing t with
  | nil => rfl
  | cons f fs ih =>
    have h1 : ∀ q : ℚ, fileYield f ≠ some (c, m, q) := fun q => h f (by simp) q
    have h2 : ∀ g ∈ fs, ∀ q : ℚ, fileYield g ≠ some (c, m, q) :=
      fun g hg => h g (by simp [hg])
    calc modeVal (collectFrom (step t f) fs) c m
        = modeVal (step t f) c m := ih h2 (step t f)
      _ = modeVal t c m := modeVal_step_of_no_yield h1 t

theorem keysNodup_ensureKey {t : Table} (h : KeysNodup t) (c : ℕ) :
    KeysNodup (ensureKey t c) := by
  unfold ensureKey
  by_cases hf : (findEntry t c).isSome
  · rwa [if_pos hf]
  · rw [if_neg hf]
    unfold KeysNodup at h ⊢
    rw [List.map_append, List.nodup_append]
    refine ⟨h, List.nodup_singleton c, ?_⟩
    intro a ha hb
    simp only [List.map_cons, List.map_nil, List.mem_singleton] at hb
    subst hb
    exact hf (findEntry_isSome_iff.mpr ha)

theorem keysNodup_step {t : Table} (h : KeysNodup t) (f : EFile) :
    KeysNodup (step t f) := by
  unfold step
  cases matchFilename f.name with
  | none => exact h
  | some p =>
    obtain ⟨c, m⟩ := p
    cases fileValue f with
    | none => exact keysNodup_ensureKey h c
    | some q =>
      unfold KeysNodup
      rw [keys_setMode]
      exact keysNodup_ensureKey h c

theorem keysNodup_collectFrom {t : Table} (h : KeysNodup t) (fs : List EFile) :
    KeysNodup (collectFrom t fs) := by
  induction fs generalizing t with
  | nil => exact h
  | cons f fs ih => exact ih (keysNodup_step h f)

theorem keysNodup_collect (fs : List EFile) : KeysNodup (collect fs) :=
  keysNodup_collectFrom (by simp [KeysNodup]) fs

/-! ### Lemmas about the sorted key list -/

theorem mem_sortedKeys {t : Table} {c : ℕ} :
    c ∈ sortedKeys t ↔ c ∈ t.map Prod.fst := by
  unfold sortedKeys
  exact List.mem_insertionSort _

theorem sortedKeys_sorted (t : Table) : (sortedKeys t).Sorted (· ≤ ·) :=
  List.sorted_insertionSort _ _

theorem sortedKeys_pairwise_lt {t : Table} (h : KeysNodup t) :
    (sortedKeys t).Pairwise (· < ·) := by
  have hnd : (sortedKeys t).Nodup :=
    (List.perm_insertionSort _ _).nodup_iff.mpr h
  exact ((sortedKeys_sorted t).and hnd).imp
    fun hab => lt_of_le_of_ne hab.1 hab.2

/-! ### Lemmas about the aggregation loop -/

theorem mem_deltaRows {t : Table} {ks : List ℕ} {s : List (ℕ × ℚ)}
    (h : deltaRows t ks = .ok s) (c : ℕ) (d : ℚ) :
    (c, d) ∈ s ↔ c ∈ ks ∧ ∃ sv hv, modeVal t c .sw = some sv ∧
      modeVal t c .hw = some hv ∧ d = sv - hv := by
  induction ks generalizing s with
  | nil =>
    injection h with h
    subst h
    simp
  | cons c0 cs ih =>
    cases hsw : modeVal t c0 Mode.sw with
    | none =>
      rw [deltaRows, hsw] at h
      rw [ih h]
      constructor
      · rintro ⟨hmem, hval⟩
        exact ⟨List.mem_cons_of_mem c0 hmem, hval⟩
      · rintro ⟨hmem, sv, hv, hval⟩
        rcases List.mem_cons.mp hmem with rfl | hmem
        · rw [hsw] at hval
          cases hval.1
        · exact ⟨hmem, sv, hv, hval⟩
    | some sv0 =>
      cases hhw : modeVal t c0 Mode.hw with
      | none =>
        simp only [deltaRows, hsw, hhw] at h
        rw [ih h]
        constructor
        · rintro ⟨hmem, hval⟩
          exact ⟨List.mem_cons_of_mem c0 hmem, hval⟩
        · rintro ⟨hmem, sv, hv, hval⟩
          rcases List.mem_cons.mp hmem with rfl | hmem
          · rw [hhw] at hval
            cases hval.2.1
          · exact ⟨hmem, sv, hv, hval⟩
      | some hv0 =>
        simp only [deltaRows, hsw, hhw] at h
        by_cases h0 : c0 = 0
        · rw [if_pos h0] at h
          cases h
        · rw [if_neg h0] at h
          cases hrec : deltaRows t cs with
          | error e => rw [hrec] at h; cases h
          | ok s0 =>
            rw [hrec] at h
            injection h with h
            subst h
            rw [List.mem_cons, ih hrec]
            constructor
            · rintro (heq | ⟨hmem, hval⟩)
              · have hc : c = c0 := congrArg Prod.fst heq
                have hd : d = sv0 - hv0 := congrArg Prod.snd heq
                subst hc
                exact ⟨by simp, sv0, hv0, hsw, hhw, hd⟩
              · exact ⟨List.mem_cons_of_mem c0 hmem, hval⟩
            · rintro ⟨hmem, sv, hv, h1, h2, h3⟩
              rcases List.mem_cons.mp hmem with rfl | hmem
              · left
                rw [hsw] at h1
                rw [hhw] at h2
                injection h1 with h1
                injection h2 with h2
                rw [h3, ← h1, ← h2]
              · exact Or.inr ⟨hmem, sv, hv, h1, h2, h3⟩

theorem deltaRows_ok_keys_sublist {t : Table} {ks : List ℕ} {s : List (ℕ × ℚ)}
    (h : deltaRows t ks = .ok s) : (s.map Prod.fst).Sublist ks := by
  induction ks generalizing s with
  | nil =>
    injection h with h
    subst h
    simp
  | cons c0 cs ih =>
    cases hsw : modeVal t c0 Mode.sw with
    | none =>
      rw [deltaRows, hsw] at h
      exact (ih h).cons c0
    | some sv0 =>
      cases hhw : modeVal t c0 Mode.hw with
      | none =>
        simp only [deltaRows, hsw, hhw] at h
        exact (ih h).cons c0
      | some hv0 =>
        simp only [deltaRows, hsw, hhw] at h
        by_cases h0 : c0 = 0
        · rw [if_pos h0] at h
          cases h
        · rw [if_neg h0] at h
          cases hrec : deltaRows t cs with
          | error e => rw [hrec] at h; cases h
          | ok s0 =>
            rw [hrec] at h
            injection h with h
            subst h
            exact (ih hrec).cons₂ c0

theorem deltaRows_ok_ne_zero {t : Table} {ks : List ℕ} {s : List (ℕ × ℚ)}
    (h : deltaRows t ks = .ok s) : ∀ p ∈ s, p.1 ≠ 0 := by
  induction ks generalizing s with
  | nil =>
    injection h with h
    subst h
    simp
  | cons c0 cs ih =>
    cases hsw : modeVal t c0 Mode.sw with
    | none =>
      rw [deltaRows, hsw] at h
      exact ih h
    | some sv0 =>
      cases hhw : modeVal t c0 Mode.hw with
      | none =>
        simp only [deltaRows, hsw, hhw] at h
        exact ih h
      | some hv0 =>
        simp only [deltaRows, hsw, hhw] at h
        by_cases h0 : c0 = 0
        · rw [if_pos h0] at h
          cases h
        · rw [if_neg h0] at h
          cases hrec : deltaRows t cs with
          | error e => rw [hrec] at h; cases h
          | ok s0 =>
            rw [hrec] at h
            injection h with h
            subst h
            intro p hp
            rcases List.mem_cons.mp hp with rfl | hp
            · exact h0
            · exact ih hrec p hp

theorem deltaRows_error_iff {t : Table} {ks : List ℕ} :
    deltaRows t ks = .error () ↔
      0 ∈ ks ∧ (modeVal t 0 .sw).isSome ∧ (modeVal t 0 .hw).isSome := by
  induction ks with
  | nil => simp [deltaRows]
  | cons c0 cs ih =>
    cases hsw : modeVal t c0 Mode.sw with
    | none =>
      rw [deltaRows, hsw, ih]
      constructor
      · rintro ⟨hmem, hval⟩
        exact ⟨List.mem_cons_of_mem c0 hmem, hval⟩
      · rintro ⟨hmem, h1, h2⟩
        rcases List.mem_cons.mp hmem with heq | hmem
        · rw [heq, hsw] at h1
          cases h1
        · exact ⟨hmem, h1, h2⟩
    | some sv0 =>
      cases hhw : modeVal t c0 Mode.hw with
      | none =>
        rw [deltaRows, hsw, hhw, ih]
        constructor
        · rintro ⟨hmem, hval⟩
          exact ⟨List.mem_cons_of_mem c0 hmem, hval⟩
        · rintro ⟨hmem, h1, h2⟩
          rcases List.mem_cons.mp hmem with heq | hmem
          · rw [heq, hhw] at h2
            cases h2
          · exact ⟨hmem, h1, h2⟩
      | some hv0 =>
        simp only [deltaRows, hsw, hhw]
        by_cases h0 : c0 = 0
        · subst h0
          rw [if_pos rfl]
          refine iff_of_true rfl ⟨by simp, ?_, ?_⟩
          · rw [hsw]
            rfl
          · rw [hhw]
            rfl
        · rw [if_neg h0]
          cases hrec : deltaRows t cs with
          | error e =>
            cases e
            simp only [hrec, Except.map]
            rw [ih] at hrec
            exact iff_of_true trivial ⟨List.mem_cons_of_mem c0 hrec.1, hrec.2⟩
          | ok s0 =>
            simp only [hrec, Except.map]
            constructor
            · intro h
              cases h
            · rintro ⟨hmem, h1, h2⟩
              rcases List.mem_cons.mp hmem with heq | hmem
              · exact absurd heq.symm h0
              · rw [ih.mpr ⟨hmem, h1, h2⟩] at hrec
                cases hrec

theorem findEntry_isSome_of_modeVal {t : Table} {c : ℕ} {m : Mode} {v : ℚ}
    (h : modeVal t c m = some v) : (findEntry t c).isSome := by
  unfold modeVal at h
  cases hf : findEntry t c with
  | none => rw [hf] at h; cases h
  | some e => rfl

theorem deltaSeriesLog_error_iff {t : Table} :
    deltaSeriesLog t = .error () ↔
      (modeVal t 0 .sw).isSome ∧ (modeVal t 0 .hw).isSome := by
  unfold deltaSeriesLog
  rw [deltaRows_error_iff]
  constructor
  · rintro ⟨_, h⟩
    exact h
  · rintro ⟨h1, h2⟩
    obtain ⟨v1, hv1⟩ := Option.isSome_iff_exists.mp h1
    refine ⟨?_, h1, h2⟩
    rw [mem_sortedKeys, ← findEntry_isSome_iff]
    exact findEntry_isSome_of_modeVal hv1

/-! ### Claims -/

/-- C1: for every ExperimentTable, the log-mode DeltaSeries produced by
the aggregator contains an entry for a cache size iff both the software
and hardware times were recorded for it, and the entry's delta is exactly
`software_time - hardware_time`. -/
theorem C1_deltaSeries_iff_complete_pair (t : Table) (s : List (ℕ × ℚ))
    (h : deltaSeriesLog t = .ok s) (c : ℕ) (d : ℚ) :
    (c, d) ∈ s ↔ ∃ sv hv, modeVal t c .sw = some sv ∧
      modeVal t c .hw = some hv ∧ d = sv - hv := by
  rw [mem_deltaRows h c d]
  constructor
  · rintro ⟨_, hval⟩
    exact hval
  · rintro ⟨sv, hv, h1, h2, h3⟩
    refine ⟨?_, sv, hv, h1, h2, h3⟩
    rw [mem_sortedKeys, ← findEntry_isSome_iff]
    exact findEntry_isSome_of_modeVal h1

/-- Witness for C1 at a one-entry table with both modes recorded. -/
theorem C1_deltaSeries_iff_complete_pair_witness :
    (8, (3 : ℚ) - 1) ∈ [((8 : ℕ), (3 : ℚ) - 1)] ↔ ∃ sv hv,
      modeVal [(8, ⟨some 3, some 1⟩)] 8 .sw = some sv ∧
      modeVal [(8, ⟨some 3, some 1⟩)] 8 .hw = some hv ∧ (3 : ℚ) - 1 = sv - hv :=
  C1_deltaSeries_iff_complete_pair [(8, ⟨some 3, some 1⟩)] [(8, 3 - 1)] rfl 8 (3 - 1)

/-- C2: end-to-end scenario A — a directory with `exp_1048576_sw.txt`
(seconds value 10.0) and `exp_1048576_hw.txt` (seconds value 6.0) yields
the single log-mode series point with delta 4.0 plotted at
x = log2(1048576) = 20.0, with tick label `"1MB"`. -/
theorem C2_endToEnd_one_mebibyte_pair :
    runMain (some
      [⟨"exp_1048576_sw.txt", some "mixgraph : 1.234 micros/op 810.4 ops/sec 10.0 seconds"⟩,
       ⟨"exp_1048576_hw.txt", some "mixgraph : 0.9 micros/op 1111.1 ops/sec 6.0 seconds"⟩]) =
      .plotted [(1048576, 4)] [1048576] ∧
    pyLog2 1048576 = 20 ∧ tickLabel 1048576 = "1MB" := by
  have hsw : pyFloat ['1', '0', '.', '0'] = some 10 := by
    show some (((10 : ℕ) : ℚ) + ((0 : ℕ) : ℚ) / 10 ^ (1 : ℕ)) = some 10
    norm_num
  have hhw : pyFloat ['6', '.', '0'] = some 6 := by
    show some (((6 : ℕ) : ℚ) + ((0 : ℕ) : ℚ) / 10 ^ (1 : ℕ)) = some 6
    norm_num
  have hfv1 : fileValue ⟨"exp_1048576_sw.txt",
      some "mixgraph : 1.234 micros/op 810.4 ops/sec 10.0 seconds"⟩ = some 10 := by
    show (searchMix
      (String.toList "mixgraph : 1.234 micros/op 810.4 ops/sec 10.0 seconds")).bind
        pyFloat = some 10
    rw [show searchMix
      (String.toList "mixgraph : 1.234 micros/op 810.4 ops/sec 10.0 seconds") =
        some ['1', '0', '.', '0'] from by decide]
    exact hsw
  have hfv2 : fileValue ⟨"exp_1048576_hw.txt",
      some "mixgraph : 0.9 micros/op 1111.1 ops/sec 6.0 seconds"⟩ = some 6 := by
    show (searchMix
      (String.toList "mixgraph : 0.9 micros/op 1111.1 ops/sec 6.0 seconds")).bind
        pyFloat = some 6
    rw [show searchMix
      (String.toList "mixgraph : 0.9 micros/op 1111.1 ops/sec 6.0 seconds") =
        some ['6', '.', '0'] from by decide]
    exact hhw
  have hstep1 : step [] ⟨"exp_1048576_sw.txt",
      some "mixgraph : 1.234 micros/op 810.4 ops/sec 10.0 seconds"⟩ =
      [(1048576, ⟨some 10, none⟩)] := by
    simp only [step, show matchFilename "exp_1048576_sw.txt" =
      some (1048576, Mode.sw) from by decide, hfv1]
    rfl
  have hstep2 : step [(1048576, ⟨some 10, none⟩)] ⟨"exp_1048576_hw.txt",
      some "mixgraph : 0.9 micros/op 1111.1 ops/sec 6.0 seconds"⟩ =
      [(1048576, ⟨some 10, some 6⟩)] := by
    simp only [step, show matchFilename "exp_1048576_hw.txt" =
      some (1048576, Mode.hw) from by decide, hfv2]
    rfl
  have hcol : collect
      [⟨"exp_1048576_sw.txt", some "mixgraph : 1.234 micros/op 810.4 ops/sec 10.0 seconds"⟩,
       ⟨"exp_1048576_hw.txt", some "mixgraph : 0.9 micros/op 1111.1 ops/sec 6.0 seconds"⟩] =
      [(1048576, ⟨some 10, some 6⟩)] := by
    show step (step []
      ⟨"exp_1048576_sw.txt", some "mixgraph : 1.234 micros/op 810.4 ops/sec 10.0 seconds"⟩)
      ⟨"exp_1048576_hw.txt", some "mixgraph : 0.9 micros/op 1111.1 ops/sec 6.0 seconds"⟩ = _
    rw [hstep1, hstep2]
  have hds : deltaSeriesLog [(1048576, ⟨some 10, some 6⟩)] =
      .ok [(1048576, (10 : ℚ) - 6)] := rfl
  have hds4 : deltaSeriesLog [(1048576, ⟨some 10, some 6⟩)] = .ok [(1048576, 4)] := by
    rw [show (10 : ℚ) - 6 = 4 from by norm_num] at hds
    exact hds
  refine ⟨?_, ?_, by decide⟩
  · simp only [runMain, hcol, hds4, List.isEmpty_cons]
    rfl
  · unfold pyLog2
    have h : ((1048576 : ℕ) : ℝ) = (2 : ℝ) ^ (20 : ℕ) := by norm_num
    rw [h, Real.logb_pow, Real.logb_self_eq_one (by norm_num)]
    norm_num

/-- C3 counterexample: a directory holding a well-formed sw/hw pair for
cache size 0 drives `plot_time_differences_log2` into `math.log2(0)`,
which raises an uncaught `ValueError` — the run does not end
gracefully. -/
theorem C3_counterexample_log2_zero_crash :
    runMain (some
      [⟨"exp_0_sw.txt", some "mixgraph : 1.0 micros/op 2.0 ops/sec 3.0 seconds"⟩,
       ⟨"exp_0_hw.txt", some "mixgraph : 1.0 micros/op 2.0 ops/sec 2.0 seconds"⟩]) =
      .uncaughtError := by
  decide

/-- C3 amended: the run ends with an uncaught exception exactly when the
collected table holds a complete sw/hw pair for cache size 0 (the
`math.log2(0)` domain error); for every other directory contents all
failure modes are per-file skips or graceful stops. -/
theorem C3_uncaught_iff_complete_pair_at_zero (fs : List EFile) :
    runMain (some fs) = .uncaughtError ↔
      (modeVal (collect fs) 0 .sw).isSome ∧ (modeVal (collect fs) 0 .hw).isSome := by
  simp only [runMain]
  by_cases hempty : (collect fs).isEmpty
  · have ht : collect fs = [] := List.isEmpty_iff.mp hempty
    rw [if_pos hempty, ht]
    exact iff_of_false (by decide) (by simp [modeVal, findEntry])
  · rw [if_neg hempty]
    cases herr : deltaSeriesLog (collect fs) with
    | error e =>
      cases e
      exact iff_of_true rfl (deltaSeriesLog_error_iff.mp herr)
    | ok s =>
      have hne : ¬((modeVal (collect fs) 0 .sw).isSome ∧
          (modeVal (collect fs) 0 .hw).isSome) := by
        intro hs
        rw [deltaSeriesLog_error_iff.mpr hs] at herr
        cases herr
      cases s with
      | nil => exact iff_of_false (fun h => nomatch h) hne
      | cons p rows => exact iff_of_false (fun h => nomatch h) hne

/-- Witness for C3's amended claim at a crashing directory. -/
theorem C3_uncaught_iff_complete_pair_at_zero_witness :
    runMain (some
      [⟨"exp_0_sw.txt", some "mixgraph : 1.0 micros/op 2.0 ops/sec 3.0 seconds"⟩,
       ⟨"exp_0_hw.txt", some "mixgraph : 1.0 micros/op 2.0 ops/sec 2.0 seconds"⟩]) =
      .uncaughtError :=
  (C3_uncaught_iff_complete_pair_at_zero
    [⟨"exp_0_sw.txt", some "mixgraph : 1.0 micros/op 2.0 ops/sec 3.0 seconds"⟩,
     ⟨"exp_0_hw.txt", some "mixgraph : 1.0 micros/op 2.0 ops/sec 2.0 seconds"⟩]).mpr
    ⟨by decide, by decide⟩

/-- C4 counterexample: after scanning a directory holding only
`exp_4096_sw.txt` with metric-less content, the collector's table still
holds the key 4096 (mapped to an empty record) — the cache size is not
absent from the collector's results, because lines 50-51 initialize the
key before the content is parsed. -/
theorem C4_counterexample_key_present :
    collect [⟨"exp_4096_sw.txt", some "no metric here"⟩] = [(4096, ⟨none, none⟩)] := by
  decide

/-- C4 amended: a matched file whose content lacks the metric pattern is
logged as unparsable and yields no time value — every `(cache_size, mode)`
value is exactly as before the file — but the file's cache-size key is
initialized in the table (mapped to an empty record), so the key itself
is present in the collector's results. -/
theorem C4_no_metric_no_time_value (t : Table) (f : EFile) (c : ℕ) (m : Mode)
    (txt : String) (h1 : matchFilename f.name = some (c, m))
    (h2 : f.content = some txt) (h3 : searchMix txt.toList = none) :
    logFile f = .noMetric f.name ∧ step t f = ensureKey t c ∧
      (∀ c' m', modeVal (step t f) c' m' = modeVal t c' m') ∧
      (findEntry (step t f) c).isSome := by
  have hv : fileValue f = none := by
    unfold fileValue
    rw [h2]
    show (searchMix txt.toList).bind pyFloat = none
    rw [h3]
    rfl
  have hstep : step t f = ensureKey t c := by
    simp only [step, h1, hv]
  refine ⟨?_, hstep, ?_, ?_⟩
  · simp only [logFile, h1, h2, h3]
  · intro c' m'
    rw [hstep]
    exact modeVal_ensureKey t c' c m'
  · rw [hstep]
    exact findEntry_ensureKey_isSome t c

/-- Witness for C4's amended claim on the scenario-D file. -/
theorem C4_no_metric_no_time_value_witness :
    logFile ⟨"exp_4096_sw.txt", some "no metric here"⟩ =
      .noMetric "exp_4096_sw.txt" ∧
    (findEntry (step [] ⟨"exp_4096_sw.txt", some "no metric here"⟩) 4096).isSome :=
  ⟨(C4_no_metric_no_time_value [] ⟨"exp_4096_sw.txt", some "no metric here"⟩
      4096 .sw "no metric here" (by decide) rfl (by decide)).1,
   (C4_no_metric_no_time_value [] ⟨"exp_4096_sw.txt", some "no metric here"⟩
      4096 .sw "no metric here" (by decide) rfl (by decide)).2.2.2⟩

/-- C9: a missing input directory ends the run gracefully with the
directory-missing report and neither parsing nor plotting; an existing
directory whose scan produces no data ends the run gracefully with the
no-valid-data report and no chart. -/
theorem C9_graceful_missing_dir_and_empty :
    runMain none = .dirMissing ∧
      ∀ fs : List EFile, collect fs = [] → runMain (some fs) = .noValidData := by
  refine ⟨rfl, fun fs h => ?_⟩
  simp [runMain, h]

/-- Witness for C9 on a directory holding one unrecognized file. -/
theorem C9_graceful_missing_dir_and_empty_witness :
    runMain (some [⟨"readme.md", some "notes"⟩]) = .noValidData :=
  C9_graceful_missing_dir_and_empty.2 [⟨"readme.md", some "notes"⟩] (by decide)

/-- C6: in log mode, every complete-pair cache size C is plotted at
x = log2(C), the tick positions are exactly the series' cache sizes (the
re-sort of line 157 is the identity on the already-ascending list), and
the tick label is `"<C // 1048576>MB"` for C at least one mebibyte and
`"<C>B"` otherwise. -/
theorem C6_log_mode_transform_and_labels (t : Table) (s : List (ℕ × ℚ))
    (h : deltaSeriesLog t = .ok s) :
    (∀ p ∈ s, pyLog2 p.1 = Real.log p.1 / Real.log 2) ∧
    logTickSizes s = s.map Prod.fst ∧
    ∀ c ∈ logTickSizes s,
      (1024 * 1024 ≤ c → tickLabel c = toString (c / (1024 * 1024)) ++ "MB") ∧
      (c < 1024 * 1024 → tickLabel c = toString c ++ "B") := by
  refine ⟨fun p _ => by simp only [pyLog2, Real.logb], ?_, fun c _ => ?_⟩
  · unfold logTickSizes
    apply List.Sorted.insertionSort_eq
    exact List.Pairwise.sublist (deltaRows_ok_keys_sublist h) (sortedKeys_sorted t)
  · constructor
    · intro hc
      simp [tickLabel, hc]
    · intro hc
      simp [tickLabel, Nat.not_le.mpr hc]

/-- Witness for C6 at a two-key table. -/
theorem C6_log_mode_transform_and_labels_witness :
    logTickSizes [((2 : ℕ), (1 : ℚ) - 0)] = [((2 : ℕ), (1 : ℚ) - 0)].map Prod.fst :=
  (C6_log_mode_transform_and_labels [(2, ⟨some 1, some 0⟩)] [(2, 1 - 0)] rfl).2.1

/-- C10: a matched file whose content matches the metric pattern but
whose captured seconds token is not a valid float literal is caught by
the per-file handler: the file is logged (line 67), no time value is
created — the table is only key-initialized — and the scan continues
with the remaining files. -/
theorem C10_bad_float_token_skipped (t : Table) (f : EFile) (c : ℕ) (m : Mode)
    (txt : String) (tok : List Char)
    (h1 : matchFilename f.name = some (c, m)) (h2 : f.content = some txt)
    (h3 : searchMix txt.toList = some tok) (h4 : pyFloat tok = none) :
    logFile f = .readError f.name ∧ step t f = ensureKey t c ∧
      (∀ c' m', modeVal (step t f) c' m' = modeVal t c' m') ∧
      ∀ rest : List EFile,
        collectFrom t (f :: rest) = collectFrom (ensureKey t c) rest := by
  have hv : fileValue f = none := by
    unfold fileValue
    rw [h2]
    show (searchMix txt.toList).bind pyFloat = none
    rw [h3]
    exact h4
  have hstep : step t f = ensureKey t c := by
    simp only [step, h1, hv]
  refine ⟨?_, hstep, ?_, ?_⟩
  · simp only [logFile, h1, h2, h3, h4]
  · intro c' m'
    rw [hstep]
    exact modeVal_ensureKey t c' c m'
  · intro rest
    show collectFrom (step t f) rest = _
    rw [hstep]

/-- Witness for C10 on a token with two dots. -/
theorem C10_bad_float_token_skipped_witness :
    logFile ⟨"exp_8_sw.txt", some "mixgraph : 1 micros/op 2 ops/sec 1.2.3 seconds"⟩ =
      .readError "exp_8_sw.txt" ∧
    step [] ⟨"exp_8_sw.txt", some "mixgraph : 1 micros/op 2 ops/sec 1.2.3 seconds"⟩ =
      ensureKey [] 8 :=
  ⟨(C10_bad_float_token_skipped []
      ⟨"exp_8_sw.txt", some "mixgraph : 1 micros/op 2 ops/sec 1.2.3 seconds"⟩
      8 .sw "mixgraph : 1 micros/op 2 ops/sec 1.2.3 seconds"
      ['1', '.', '2', '.', '3'] (by decide) rfl (by decide) (by decide)).1,
   (C10_bad_float_token_skipped []
      ⟨"exp_8_sw.txt", some "mixgraph : 1 micros/op 2 ops/sec 1.2.3 seconds"⟩
      8 .sw "mixgraph : 1 micros/op 2 ops/sec 1.2.3 seconds"
      ['1', '.', '2', '.', '3'] (by decide) rfl (by decide) (by decide)).2.1⟩

theorem collectFrom_append (t : Table) (l1 l2 : List EFile) :
    collectFrom t (l1 ++ l2) = collectFrom (collectFrom t l1) l2 := by
  unfold collectFrom
  rw [List.foldl_append]

/-- C7: last-write-wins — when two files map to the same
`(cache_size, mode)` pair and both yield a metric value, the value
retained after the scan is the later-processed file's (hypothesis: no
later file writes that pair again); and the table never holds more than
one value per pair, since its keys stay duplicate-free and each entry
has a single slot per mode. -/
theorem C7_last_write_wins :
    (∀ fs : List EFile, KeysNodup (collect fs)) ∧
    ∀ (pre mid post : List EFile) (f1 f2 : EFile) (c : ℕ) (m : Mode) (q1 q2 : ℚ),
      fileYield f1 = some (c, m, q1) → fileYield f2 = some (c, m, q2) →
      (∀ g ∈ post, ∀ q : ℚ, fileYield g ≠ some (c, m, q)) →
      modeVal (collect (pre ++ (f1 :: (mid ++ (f2 :: post))))) c m = some q2 := by
  refine ⟨keysNodup_collect, ?_⟩
  intro pre mid post f1 f2 c m q1 q2 hy1 hy2 hpost
  calc modeVal (collectFrom [] (pre ++ (f1 :: (mid ++ (f2 :: post))))) c m
      = modeVal (collectFrom (collectFrom [] pre) (f1 :: (mid ++ (f2 :: post)))) c m := by
        rw [collectFrom_append]
    _ = modeVal (collectFrom (collectFrom (step (collectFrom [] pre) f1) mid)
          (f2 :: post)) c m := by
        show modeVal (collectFrom (step (collectFrom [] pre) f1)
          (mid ++ (f2 :: post))) c m = _
        rw [collectFrom_append]
    _ = modeVal (step (collectFrom (step (collectFrom [] pre) f1) mid) f2) c m :=
        modeVal_collectFrom_of_no_yield hpost _
    _ = some q2 := modeVal_step_yield hy2 _

/-- Witness for C7: two sw files for cache size 8; the second one's value
is retained. -/
theorem C7_last_write_wins_witness :
    modeVal (collect
      [⟨"exp_8_sw.txt", some "mixgraph : 1 micros/op 2 ops/sec 10 seconds"⟩,
       ⟨"exp_8_sw.txt", some "mixgraph : 1 micros/op 2 ops/sec 7 seconds"⟩])
      8 .sw = some 7 :=
  C7_last_write_wins.2 [] [] []
    ⟨"exp_8_sw.txt", some "mixgraph : 1 micros/op 2 ops/sec 10 seconds"⟩
    ⟨"exp_8_sw.txt", some "mixgraph : 1 micros/op 2 ops/sec 7 seconds"⟩
    8 .sw 10 7
    (by
      simp only [fileYield,
        show matchFilename "exp_8_sw.txt" = some (8, Mode.sw) from by decide,
        show fileValue ⟨"exp_8_sw.txt",
            some "mixgraph : 1 micros/op 2 ops/sec 10 seconds"⟩ = some 10 from by
          show (searchMix
            (String.toList "mixgraph : 1 micros/op 2 ops/sec 10 seconds")).bind
              pyFloat = some 10
          rw [show searchMix
            (String.toList "mixgraph : 1 micros/op 2 ops/sec 10 seconds") =
              some ['1', '0'] from by decide]
          show some (((10 : ℕ) : ℚ) + ((0 : ℕ) : ℚ) / 10 ^ (0 : ℕ)) = some 10
          simp,
        Option.map_some'])
    (by
      simp only [fileYield,
        show matchFilename "exp_8_sw.txt" = some (8, Mode.sw) from by decide,
        show fileValue ⟨"exp_8_sw.txt",
            some "mixgraph : 1 micros/op 2 ops/sec 7 seconds"⟩ = some 7 from by
          show (searchMix
            (String.toList "mixgraph : 1 micros/op 2 ops/sec 7 seconds")).bind
              pyFloat = some 7
          rw [show searchMix
            (String.toList "mixgraph : 1 micros/op 2 ops/sec 7 seconds") =
              some ['7'] from by decide]
          show some (((7 : ℕ) : ℚ) + ((0 : ℕ) : ℚ) / 10 ^ (0 : ℕ)) = some 7
          simp,
        Option.map_some'])
    (by simp)

/-- C8: for every well-formed ExperimentTable, the DeltaSeries is
strictly ascending in its x-coordinate — in linear mode
(x = cache_size / 1048576) and in log mode (x = log2(cache_size)). -/
theorem C8_series_strictly_ascending (t : Table) (ht : KeysNodup t) :
    ((linearSeries t).map Prod.fst).Pairwise (· < ·) ∧
    ∀ s, deltaSeriesLog t = .ok s →
      (s.map fun p => pyLog2 p.1).Pairwise (· < ·) := by
  constructor
  · unfold linearSeries
    refine List.pairwise_map.mpr
      (List.pairwise_filterMap.mpr ((sortedKeys_pairwise_lt ht).imp ?_))
    intro a b hab x hx y hy
    rcases h1 : modeVal t a Mode.sw with _ | sa <;> rw [h1] at hx
    · cases hx
    rcases h2 : modeVal t a Mode.hw with _ | ha <;> rw [h2] at hx
    · cases hx
    rcases h3 : modeVal t b Mode.sw with _ | sb <;> rw [h3] at hy
    · cases hy
    rcases h4 : modeVal t b Mode.hw with _ | hb <;> rw [h4] at hy
    · cases hy
    rw [Option.mem_def] at hx hy
    injection hx with hx
    injection hy with hy
    rw [← hx, ← hy]
    show (a : ℚ) / (1024 * 1024) < (b : ℚ) / (1024 * 1024)
    gcongr
  · intro s hok
    have hlt : (s.map Prod.fst).Pairwise (· < ·) :=
      List.Pairwise.sublist (deltaRows_ok_keys_sublist hok) (sortedKeys_pairwise_lt ht)
    have hnz : ∀ p ∈ s, p.1 ≠ 0 := deltaRows_ok_ne_zero hok
    rw [List.pairwise_map]
    rw [List.pairwise_map] at hlt
    refine List.Pairwise.imp_of_mem ?_ hlt
    intro p q hp hq hpq
    unfold pyLog2
    refine Real.logb_lt_logb (by norm_num) ?_ (by exact_mod_cast hpq)
    exact_mod_cast Nat.pos_of_ne_zero (hnz p hp)

/-- Witness for C8 at a two-key table with complete pairs. -/
theorem C8_series_strictly_ascending_witness :
    ((linearSeries [(1, ⟨some 1, some 0⟩), (2, ⟨some 1, some 0⟩)]).map
      Prod.fst).Pairwise (· < ·) :=
  (C8_series_strictly_ascending
    [(1, ⟨some 1, some 0⟩), (2, ⟨some 1, some 0⟩)] (by decide)).1

/-- C5 counterexample: the name `exp_1_sw.txt` followed by a single
trailing newline character still matches, because Python `$` also
matches just before a final newline — a name with an extra trailing
character that does produce a record. -/
theorem C5_counterexample_trailing_newline :
    matchFilename "exp_1_sw.txt\n" = some (1, Mode.sw) := by
  decide

/-- C5 amended: the collector produces a record exactly for the names
`exp_<digits>_<sw|hw>.txt`, optionally followed by one trailing newline
(admitted by Python `$`); the cache size is the digit run read as a
decimal integer and the mode is as encoded.  All other malformed names
(wrong extension, non-digit size field, wrong mode token, extra leading
characters, any other trailing characters) produce no record. -/
theorem C5_filename_match_iff (name : String) (n : ℕ) (m : Mode) :
    matchFilename name = some (n, m) ↔
      ∃ ds : List Char, ds ≠ [] ∧ (∀ c ∈ ds, c.isDigit) ∧ n = digitsToNat ds ∧
        (name.toList = ['e', 'x', 'p', '_'] ++
            (ds ++ '_' :: (m.token ++ ['.', 't', 'x', 't'])) ∨
         name.toList = ['e', 'x', 'p', '_'] ++
            (ds ++ '_' :: (m.token ++ ['.', 't', 'x', 't', '\n']))) := by
  constructor
  · intro h
    unfold matchFilename at h
    split at h
    · cases h
    next s heq =>
      split at h
      · cases h
      next hempty =>
        split at h
        · cases h
        next s2 heq2 =>
          split at h
          · cases h
          next m2 s3 heqm =>
            split at h
            · cases h
            next s4 heq4 =>
              split at h
              next hor =>
                injection h with h5
                have hdsn : digitsToNat (s.takeWhile Char.isDigit) = n :=
                  congrArg Prod.fst h5
                have hm2 : m2 = m := congrArg Prod.snd h5
                subst hm2
                have hs2 : s2 = m2.token ++ s3 := by
                  split at heqm
                  next r heq5 =>
                    injection heqm with heqm
                    have ha : Mode.sw = m2 := congrArg Prod.fst heqm
                    have hb : r = s3 := congrArg Prod.snd heqm
                    rw [← ha, ← hb]
                    exact dropLit_eq_some.mp heq5
                  next =>
                    split at heqm
                    next r heq5 =>
                      injection heqm with heqm
                      have ha : Mode.hw = m2 := congrArg Prod.fst heqm
                      have hb : r = s3 := congrArg Prod.snd heqm
                      rw [← ha, ← hb]
                      exact dropLit_eq_some.mp heq5
                    next => cases heqm
                refine ⟨s.takeWhile Char.isDigit, ?_, ?_, hdsn.symm, ?_⟩
                · intro hnil
                  rw [hnil] at hempty
                  exact hempty rfl
                · intro c hc
                  exact List.mem_takeWhile_imp hc
                · have hs : s = s.takeWhile Char.isDigit ++ s.dropWhile Char.isDigit :=
                    (List.takeWhile_append_dropWhile Char.isDigit s).symm
                  have hdw : s.dropWhile Char.isDigit = '_' :: s2 :=
                    dropLit_eq_some.mp heq2
                  have hs3 : s3 = ['.', 't', 'x', 't'] ++ s4 :=
                    dropLit_eq_some.mp heq4
                  have hfull : name.toList = ['e', 'x', 'p', '_'] ++
                      (s.takeWhile Char.isDigit ++
                        '_' :: (m2.token ++ (['.', 't', 'x', 't'] ++ s4))) := by
                    rw [dropLit_eq_some.mp heq]
                    congr 1
                    conv_lhs => rw [hs]
                    rw [hdw, hs2, hs3]
                  rcases hor with htail | htail
                  · left
                    rw [hfull, htail]
                    simp
                  · right
                    rw [hfull, htail]
                    simp
              next => cases h
  · rintro ⟨ds, hne, hdig, hn, hcase⟩
    have hmain : ∀ tail : List Char, tail = [] ∨ tail = ['\n'] →
        name.toList = ['e', 'x', 'p', '_'] ++
          (ds ++ '_' :: (m.token ++ (['.', 't', 'x', 't'] ++ tail))) →
        matchFilename name = some (n, m) := by
      intro tail htail hname
      have h1 : dropLit ['e', 'x', 'p', '_'] (['e', 'x', 'p', '_'] ++
          (ds ++ '_' :: (m.token ++ (['.', 't', 'x', 't'] ++ tail)))) =
          some (ds ++ '_' :: (m.token ++ (['.', 't', 'x', 't'] ++ tail))) :=
        dropLit_eq_some.mpr rfl
      obtain ⟨htw, hdw⟩ := takeWhile_append_all '_'
        (m.token ++ (['.', 't', 'x', 't'] ++ tail)) hdig (by decide)
      have hne2 : ((ds : List Char).isEmpty = true) = False := by
        cases ds with
        | nil => exact absurd rfl hne
        | cons a l => simp
      have h2 : dropLit ['_'] ('_' :: (m.token ++ (['.', 't', 'x', 't'] ++ tail))) =
          some (m.token ++ (['.', 't', 'x', 't'] ++ tail)) := dropLit_eq_some.mpr rfl
      have h4 : dropLit ['.', 't', 'x', 't'] (['.', 't', 'x', 't'] ++ tail) =
          some tail := dropLit_eq_some.mpr rfl
      cases m with
      | sw =>
        have h3 : dropLit Mode.sw.token (Mode.sw.token ++ (['.', 't', 'x', 't'] ++ tail)) =
            some (['.', 't', 'x', 't'] ++ tail) := dropLit_eq_some.mpr rfl
        simp only [matchFilename, hname, h1, htw, hdw, hne2, if_false, h2, h3, h4]
        rw [if_pos htail, hn]
      | hw =>
        have h3 : dropLit Mode.sw.token (Mode.hw.token ++ (['.', 't', 'x', 't'] ++ tail)) =
            none := rfl
        have h3b : dropLit Mode.hw.token (Mode.hw.token ++ (['.', 't', 'x', 't'] ++ tail)) =
            some (['.', 't', 'x', 't'] ++ tail) := dropLit_eq_some.mpr rfl
        simp only [matchFilename, hname, h1, htw, hdw, hne2, if_false, h2, h3, h3b, h4]
        rw [if_pos htail, hn]
    rcases hcase with hname | hname
    · refine hmain [] (Or.inl rfl) ?_
      rw [hname]
      simp
    · refine hmain ['\n'] (Or.inr rfl) ?_
      rw [hname]
      simp

end CacheSpeedup



